import Mathlib

/-!
Shallow embedding of `src/utils/fit.py` of the model-indexes-calculation
repository: point estimation (`fit`), multi-start fitting (`fit_parallel`),
hierarchical EM fitting (`fit_hier`) and group-level Bayesian model
selection (`fit_bms` with `calc_lme`, `dirchlet_exceedence`, `calc_BOR`,
`F0`, `FE`).

Modelling conventions.  Machine floats are modelled as real numbers; the
degenerate float values the code explicitly tests for (`nan`, `inf`, a
nonzero imaginary part) are modelled with `Option` at exactly the places
where the code produces and then checks them.  Library code that is not
part of the repository (scipy optimizers, `np.random.RandomState`,
`scipy.special.psi` / `gammaln`, the gamma sampler, `model.fit`) enters as
explicit function parameters or, where the spec describes it, as clearly
marked spec-modelled definitions.
-/

noncomputable section

/-- Constant `eps_ = 1e-13` defined at the top of `fit.py` (line 12). -/
def eps_ : ℝ := 1e-13

/-- Modelled from the spec: `np.random.RandomState(seed)` (numpy library
code, not part of this repository) is a "seed-derived deterministic
generator".  Its word stream is modelled as a pure linear-congruential
step on the seed word. -/
def rsNext (s : ℕ) : ℕ := (6364136223846793005 * s + 1442695040888963407) % 2 ^ 64

/-- Modelled from the spec: one `rng.rand()` draw read off generator state
`s`, a real number in `[0, 1)`. -/
def rand01 (s : ℕ) : ℝ := ((s % 2 ^ 53 : ℕ) : ℝ) / 2 ^ 53

/-- Source `fit.py` lines 171-173: each coordinate of the initial point is
`pbnd[0] + (pbnd[1] - pbnd[0]) * rng.rand()`, the generator state being
threaded through the successive draws. -/
def randInitAux : ℕ → List (ℝ × ℝ) → List ℝ
  | _, [] => []
  | s, pbnd :: rest =>
    (pbnd.1 + (pbnd.2 - pbnd.1) * rand01 (rsNext s)) :: randInitAux (rsNext s) rest

/-- Source `fit.py` lines 171-173: the random initial point drawn from a
fresh `np.random.RandomState(seed)`. -/
def randInit (seed : ℕ) (pbnds : List (ℝ × ℝ)) : List ℝ := randInitAux seed pbnds

/-- Python truthiness of the `init` argument at line 166 (`if init:`):
`False` (modelled as `none`) and an empty list are falsy, a nonempty
parameter list is truthy. -/
def initTruthy : Option (List ℝ) → Bool
  | none => false
  | some l => !l.isEmpty

/-- Source `fit.py` lines 165-173: the initial point of one `fit` call —
the supplied `init` when truthy, otherwise the seeded random draw within
the plausible bounds. -/
def fitParam0 (init : Option (List ℝ)) (seed : ℕ) (pbnds : List (ℝ × ℝ)) : List ℝ :=
  if initTruthy init then init.getD [] else randInit seed pbnds

/-- The result dictionary built by `fit` (lines 200-207).  The curvature
fields stored only for BFGS (lines 208-210, a numpy pseudo-inverse of the
optimizer's inverse-Hessian estimate) are external numpy computations and
are not modelled; no claim refers to them. -/
structure FitRes where
  log_post : ℝ
  log_like : ℝ
  param : List ℝ
  param_name : List String
  n_param : ℕ
  aic : ℝ
  bic : ℝ

/-- Shallow embedding of `fit` (`fit.py` lines 129-212).  `data` is the
dictionary mapping unit ids to observation tables (a table is a list of
rows of an arbitrary type `ρ`); a Gaussian prior is represented by its
(loc, scale) pair.  `optimizer` abstracts the numerical routine
(`scipy.optimize.minimize` or BADS — both external): it receives the
objective, the bounds actually handed over (`None` for BFGS, line 161) and
the initial point, and returns the point reached. -/
def fit {ρ : Type} (optimizer : (List ℝ → ℝ) → Option (List (ℝ × ℝ)) → List ℝ → List ℝ)
    (loss_fn : List ℝ → List (ℕ × List ρ) → Option (List (ℝ × ℝ)) → ℝ)
    (data : List (ℕ × List ρ)) (bnds : Option (List (ℝ × ℝ)))
    (pbnds : List (ℝ × ℝ)) (p_name : List String)
    (p_priors : Option (List (ℝ × ℝ))) (method : String) (alg : String)
    (init : Option (List ℝ)) (seed : ℕ) : FitRes :=
  let n_params := p_name.length
  let pp := if method = "mle" then none else p_priors
  let bnds' := if alg = "BFGS" then none else bnds
  let n_rows : ℕ := (data.map (fun kv => kv.2.length)).sum
  let param0 := fitParam0 init seed pbnds
  let objective := fun x => loss_fn x data pp
  let x_min := optimizer objective bnds' param0
  let f_min := objective x_min
  let ll := -loss_fn x_min data none
  { log_post := -f_min
    log_like := ll
    param := x_min
    param_name := p_name
    n_param := n_params
    aic := (n_params : ℝ) * 2 - 2 * ll
    bic := (n_params : ℝ) * Real.log (n_rows : ℝ) - 2 * ll }

/-- The per-result selection step of `fit_parallel` (lines 263-268): keep
the incumbent unless the new restart's loss `-log_post` is strictly
smaller.  `opt_val` starts at `np.inf`, so over the reals the first
restart is always accepted; the not-yet-initialized incumbent is `none`. -/
def bestStep (acc : Option FitRes) (r : FitRes) : Option FitRes :=
  match acc with
  | none => some r
  | some b => if -r.log_post < -b.log_post then some r else some b

/-- Shallow embedding of `fit_parallel` (`fit.py` lines 218-272): dispatch
`n_fits` copies of `fit` differing only in the seed (`seed + 2*i`,
line 258), then scan the results in restart order keeping the first strict
improvement of the loss `-log_post` (line 266, strict `<`, so the earliest
of tied best restarts survives).  `opt_val` starts at `np.inf`, so over
the reals the first restart is always accepted; this is modelled by an
`Option` accumulator.  The diagnostic tie count `n_low` (lines 269-270)
does not affect the returned value and is not modelled. -/
def fit_parallel {ρ : Type}
    (optimizer : (List ℝ → ℝ) → Option (List (ℝ × ℝ)) → List ℝ → List ℝ)
    (loss_fn : List ℝ → List (ℕ × List ρ) → Option (List (ℝ × ℝ)) → ℝ)
    (data : List (ℕ × List ρ)) (bnds : Option (List (ℝ × ℝ)))
    (pbnds : List (ℝ × ℝ)) (p_name : List String)
    (p_priors : Option (List (ℝ × ℝ))) (method : String) (alg : String)
    (init : Option (List ℝ)) (seed : ℕ) (n_fits : ℕ) : Option FitRes :=
  let results := (List.range n_fits).map (fun i =>
    fit optimizer loss_fn data bnds pbnds p_name p_priors method alg init (seed + 2 * i))
  results.foldl bestStep none

/-- The fields of one `model.fit` result that `fit_hier` reads.  The `model`
object is an argument of `fit_hier` and its `fit` method is not code of
this repository, so the per-unit optimization is abstracted.  `slogdetH`
models `np.linalg.slogdet(item['H'])[1]` (line 94): `none` when that
computation raises, the case caught at lines 97-101. -/
structure SubFit where
  param : List ℝ
  H_inv_diag : List ℝ
  log_post : ℝ
  slogdetH : Option ℝ

/-- The dictionary stored under the reserved `'group'` key at lines 115-119. -/
structure GroupFit where
  group_lme : ℝ
  group_mu : List ℝ
  group_var : List ℝ

/-- The fixed inputs of one `fit_hier` run: `n_param = model.agent.n_params`
(line 38); `data` is the data dictionary reduced to its unit ids and
per-unit row counts (`m_data`, line 39, is the row count of the FIRST
unit's table); `modelFit` abstracts the `model.fit` call of lines 68-70 as
a function of the unit id and the current priors (a Gaussian prior is its
(loc, scale) pair); `tol` and `max_iter` are the convergence controls. -/
structure HierCtx where
  n_param : ℕ
  data : List (ℕ × ℕ)
  modelFit : ℕ → List (ℝ × ℝ) → SubFit
  tol : ℝ
  max_iter : ℕ

/-- Source line 40: `sub_lst = list(data.keys())`. -/
def HierCtx.sub_lst (C : HierCtx) : List ℕ := C.data.map Prod.fst

/-- Source line 41: `n_sub = len(sub_lst)`. -/
def HierCtx.n_sub (C : HierCtx) : ℕ := C.data.length

/-- Source line 39: the row count of the first unit's table. -/
def HierCtx.m_data (C : HierCtx) : ℕ := (C.data.headD (0, 0)).2

/-- Componentwise addition of parameter vectors (numpy array `+`). -/
def vecAdd (a b : List ℝ) : List ℝ := List.zipWith (· + ·) a b

/-- Source line 62: `p_priors = [norm(mu, np.sqrt(v)) for mu, v in zip(mus, vs)]`,
each frozen normal represented by its (loc, scale) pair. -/
def hierPriors (mus vs : List ℝ) : List (ℝ × ℝ) :=
  List.zipWith (fun mu v => (mu, Real.sqrt v)) mus vs

/-- One EM iteration of `fit_hier` (lines 61-106): the E-step collects one
per-unit fit from `model.fit` under the current priors; the M-step sets
`mus = np.mean(params, axis=0)`, accumulates `params**2 + diag(H_inv)`
into `vs`, collects the per-unit Laplace evidence terms into `group_ll`
(a unit whose `slogdet` computation raised is skipped, lines 97-101),
clips `vs/n_sub - mus**2` at `1e-5` from below (line 105) and forms
`lme = sum(group_ll) - n_param*log(m_data*n_sub)` (line 106).  Returns
`(fit_info, mus', vs', lme')`. -/
def hierIter (C : HierCtx) (mus vs : List ℝ) :
    List (ℕ × SubFit) × List ℝ × List ℝ × ℝ :=
  let p_priors := hierPriors mus vs
  let fit_info := C.sub_lst.map (fun s => (s, C.modelFit s p_priors))
  let params := fit_info.map (fun it => it.2.param)
  let mus' := (params.foldl vecAdd (List.replicate C.n_param 0)).map
    (fun x => x / (C.n_sub : ℝ))
  let vsAcc := fit_info.foldl (fun acc it =>
      vecAdd acc (vecAdd (it.2.param.map (fun x => x ^ 2)) it.2.H_inv_diag))
    (List.replicate C.n_param 0)
  let group_ll := fit_info.filterMap (fun it =>
    (it.2.slogdetH).map (fun log_h =>
      it.2.log_post + (1 / 2) * ((C.n_param : ℝ) * Real.log (2 * Real.pi) - log_h)))
  let vs' := (List.zipWith (fun a m => a / (C.n_sub : ℝ) - m ^ 2) vsAcc mus').map
    (fun x => max x 1e-5)
  let lme' := group_ll.sum - (C.n_param : ℝ) * Real.log ((C.m_data * C.n_sub : ℕ) : ℝ)
  (fit_info, mus', vs', lme')

/-- The `(lme, mus, vs)` state of the EM loop after `n` iterations; the
initial state has `lme = 0` (line 55) and the initial group moments. -/
def hierState (C : HierCtx) (mus0 vs0 : List ℝ) : ℕ → ℝ × List ℝ × List ℝ
  | 0 => (0, mus0, vs0)
  | n + 1 =>
    let s := hierState C mus0 vs0 n
    let r := hierIter C s.2.1 s.2.2
    (r.2.2.2, r.2.1, r.2.2.1)

/-- What one `fit_hier` run leaves behind: the sequence of states pickled
to `fname` (line 110) in dump order, the in-memory collection returned at
line 123 (per-unit entries plus the optional `'group'` entry), and the
number of EM iterations run. -/
structure HierResult where
  dumps : List (List (ℕ × SubFit) × Option GroupFit)
  ret : List (ℕ × SubFit) × Option GroupFit
  iters : ℕ

/-- The `while True` loop of `fit_hier` (lines 56-121).  Each pass runs one
EM iteration, persists the per-unit collection (`pickle.dump`, line 110 —
before any group record exists), then evaluates
`done = |lme - prev_lme| < tol or epi >= max_iter` (line 113); on `done`
the group record is attached to the in-memory collection (line 120) and
the loop breaks.  The recursion is driven by fuel; `done` is forced once
`epi` reaches `max_iter`, so fuel `max_iter + 1` is never exhausted
(proved below). -/
def hierLoop (C : HierCtx) : ℕ → ℕ → ℝ → List ℝ → List ℝ →
    List (List (ℕ × SubFit) × Option GroupFit) → HierResult
  | 0, epi, _, _, _, dumps => ⟨dumps.reverse, ([], none), epi⟩
  | fuel + 1, epi, lme, mus, vs, dumps =>
    let r := hierIter C mus vs
    let dumps' := (r.1, (none : Option GroupFit)) :: dumps
    if |r.2.2.2 - lme| < C.tol ∨ C.max_iter ≤ epi + 1 then
      ⟨dumps'.reverse, (r.1, some ⟨r.2.2.2, r.2.1, r.2.2.1⟩), epi + 1⟩
    else
      hierLoop C fuel (epi + 1) r.2.2.2 r.2.1 r.2.2.1 dumps'

/-- Source lines 46-51: initial group mean — the supplied one, else the
midpoint `plb + .5*(pub - plb)` of the plausible bounds. -/
def hierMus0 (init : Option (List ℝ × List ℝ)) (plb pub : List ℝ) : List ℝ :=
  match init with
  | some iv => iv.1
  | none => List.zipWith (fun a b => a + (1 / 2) * (b - a)) plb pub

/-- Source lines 46-51: initial group variance — the supplied one, else the
width `pub - plb` of the plausible bounds. -/
def hierVs0 (init : Option (List ℝ × List ℝ)) (plb pub : List ℝ) : List ℝ :=
  match init with
  | some iv => iv.2
  | none => List.zipWith (fun b a => b - a) pub plb

/-- Shallow embedding of `fit_hier` (`fit.py` lines 19-123). -/
def fit_hier (C : HierCtx) (init : Option (List ℝ × List ℝ))
    (plb pub : List ℝ) : HierResult :=
  hierLoop C (C.max_iter + 1) 0 0 (hierMus0 init plb pub) (hierVs0 init plb pub) []

/-- The convergence test of line 113 read against the state sequence:
iteration `n ≥ 1` is terminal when `|lme_n - lme_(n-1)| < tol` or
`n ≥ max_iter`. -/
def doneAt (C : HierCtx) (mus0 vs0 : List ℝ) (n : ℕ) : Prop :=
  |(hierState C mus0 vs0 n).1 - (hierState C mus0 vs0 (n - 1)).1| < C.tol ∨
    C.max_iter ≤ n

/-- The per-unit Laplace evidence sum of one EM iteration, written as a sum
over the unit list: a unit whose `slogdet` computation succeeded with value
`log_h` contributes `log_post + (1/2)*(n_param*log(2*pi) - log_h)`, a unit
whose `slogdet` computation failed contributes nothing. -/
def laplaceSum (C : HierCtx) (mus vs : List ℝ) : ℝ :=
  (C.sub_lst.map (fun s =>
    match (C.modelFit s (hierPriors mus vs)).slogdetH with
    | some log_h => (C.modelFit s (hierPriors mus vs)).log_post +
        (1 / 2) * ((C.n_param : ℝ) * Real.log (2 * Real.pi) - log_h)
    | none => 0)).sum

/-- One model's entry of `all_sub_info` as `calc_lme` reads it (lines
362-396): per-subject lists of `log_post`, of the Hessian determinants
`np.linalg.det(fit_info['H'][s])` (the determinant itself is a numpy
computation on the stored matrix, recorded here as a real number), the
parameter count and the per-subject BIC list. -/
structure ModelFitInfo where
  log_post : List ℝ
  detH : List ℝ
  n_param : ℕ
  bic : List ℝ

/-- Source line 384, `np.log` of the determinant: for a nonpositive
argument numpy yields `nan` (negative) or `-inf` (zero) — exactly the
degenerate values the test at line 391 flags — modelled as `none`. -/
def logNp (x : ℝ) : Option ℝ := if x ≤ 0 then none else some (Real.log x)

/-- Source lines 384-387: one subject's Laplace evidence term
`log_post + .5*(n_param*log(2*pi) - log|H|)`; degenerate when the log of
the determinant is. -/
def laplaceEntry (k : ℕ) (lp dh : ℝ) : Option ℝ :=
  (logNp dh).map (fun h => lp + (1 / 2) * ((k : ℝ) * Real.log (2 * Real.pi) - h))

/-- Shallow embedding of `calc_lme` (lines 362-396): the per-subject Laplace
evidence vector of ONE model; when any entry of that vector is degenerate
(`np.isnan | np.isinf | imag != 0`, line 391) the whole vector is replaced
by `-.5 * bic` (line 394). -/
def calc_lme (fi : ModelFitInfo) : List ℝ :=
  let lme := List.zipWith (laplaceEntry fi.n_param) fi.log_post fi.detH
  if lme.any Option.isNone then fi.bic.map (fun b => -(1 / 2) * b)
  else lme.map (fun o => o.getD 0)

/-- The number of subjects: the length of the per-subject lists (all models
are assumed to carry the same subject list, as in the source). -/
def nSub (fis : List ModelFitInfo) : ℕ :=
  (fis.headD ⟨[], [], 0, []⟩).log_post.length

/-- Source line 315: `np.vstack([calc_lme(fi) for fi in all_sub_info]).T` —
the subjects-by-models evidence matrix as a list of subject rows. -/
def lmeRows (fis : List ModelFitInfo) : List (List ℝ) :=
  (List.range (nSub fis)).map (fun s => fis.map (fun fi => (calc_lme fi).getD s 0))

/-- Source lines 312-315: the evidence matrix of `fit_bms`, from BIC when
`use_bic` is set (line 313) and from `calc_lme` otherwise. -/
def bmsLme (fis : List ModelFitInfo) (use_bic : Bool) : List (List ℝ) :=
  if use_bic then
    (List.range (nSub fis)).map (fun s => fis.map (fun fi => -(1 / 2) * fi.bic.getD s 0))
  else lmeRows fis

/-- The row-wise maximum used by the max trick (line 329) and the argmax
count (line 423); for a nonempty row this is its maximum. -/
def rowMax (l : List ℝ) : ℝ := l.foldl max (l.headD 0)

/-- One pass of the posterior fixed-point loop (lines 321-338): `log_u`,
the per-row max-shifted normalized responsibilities `p_m1D`, the column
sums `B` and the updated `alpha = alpha0 + B` with `alpha0` all ones.
`psi` is `scipy.special.psi` (external), passed as a parameter. -/
def bmsStep (psi : ℝ → ℝ) (lme : List (List ℝ)) (alpha : List ℝ) :
    List ℝ × List (List ℝ) :=
  let log_u := lme.map (fun row =>
    List.zipWith (fun l a => l + psi a - psi alpha.sum) row alpha)
  let p_m1D := log_u.map (fun row =>
    let u := row.map (fun x => Real.exp (x - rowMax row))
    u.map (fun x => x / u.sum))
  let B := p_m1D.foldl vecAdd (List.replicate alpha.length 0)
  (List.zipWith (fun a0 b => a0 + b) (List.replicate alpha.length 1) B, p_m1D)

/-- The `while True` loop of `fit_bms` (lines 321-342), stopping when
`norm(alpha - prev) < tol`; the source loop carries no iteration bound, so
the recursion is driven by fuel (exhaustion returns the current pass). -/
def bmsLoop (psi : ℝ → ℝ) (lme : List (List ℝ)) (tol : ℝ) :
    ℕ → List ℝ → List ℝ × List (List ℝ)
  | 0, alpha => bmsStep psi lme alpha
  | fuel + 1, alpha =>
    let r := bmsStep psi lme alpha
    if Real.sqrt ((List.zipWith (fun a p => (a - p) ^ 2) r.1 alpha).sum) < tol then r
    else bmsLoop psi lme tol fuel r.1

/-- Shallow embedding of `dirchlet_exceedence` (lines 398-425).  The gamma
draws (`gamma(a).rvs`, scipy — external) are passed explicitly: `samples`
is the full list of Monte Carlo rows, one per draw, with `nSample =
samples.length`; the source accumulates the equality-based argmax counts
over memory-bounded blocks whose concatenation is exactly this single
pass. -/
def dirchlet_exceedence (Nm : ℕ) (samples : List (List ℝ)) : List ℝ :=
  let counts := samples.foldl (fun acc r =>
      List.zipWith (fun c x => c + if x = rowMax r then (1 : ℝ) else 0) acc r)
    (List.replicate Nm 0)
  counts.map (fun c => c / (samples.length : ℝ))

/-- Source `F0` (lines 449-460): negative free energy of the null, with
per-row softmax responsibilities (`scipy.special.softmax` computes
`exp(x)/sum(exp(x))` per row) and the `eps_` floor inside the log. -/
def F0 (lme : List (List ℝ)) : ℝ :=
  let Nm := (lme.headD []).length
  (lme.map (fun row =>
    let ex := row.map Real.exp
    let qm := ex.map (fun e => e / ex.sum)
    (List.zipWith (fun q l => q * (l - Real.log (Nm : ℝ) - Real.log (q + eps_)))
      qm row).sum)).sum

/-- Source `FE` (lines 462-481): negative free energy of the alternative;
`psi` and `gammaln` are `scipy.special.psi` / `gammaln` (external),
passed as parameters. -/
def FE (psi gammaln : ℝ → ℝ) (lme p_m1D : List (List ℝ))
    (alpha_post alpha0 : List ℝ) : ℝ :=
  let E_log_r := alpha_post.map (fun a => psi a - psi alpha_post.sum)
  let E_log_rmD :=
    (List.zipWith (fun prow lrow =>
      (List.zipWith (fun p le => p * le) prow (List.zipWith (· + ·) lrow E_log_r)).sum)
      p_m1D lme).sum
    + (List.zipWith (fun a0 e => (a0 - 1) * e) alpha0 E_log_r).sum
    + gammaln alpha0.sum - (alpha0.map gammaln).sum
  let Ent_p := -((p_m1D.map (fun row =>
    (row.map (fun p => p * Real.log (p + eps_))).sum)).sum)
  let Ent_alpha := (alpha_post.map gammaln).sum - gammaln alpha_post.sum
    - (List.zipWith (fun a e => (a - 1) * e) alpha_post E_log_r).sum
  E_log_rmD + Ent_p + Ent_alpha

/-- Source `calc_BOR` (lines 429-447): `bor = 1/(1 + exp(F1 - F0))`. -/
def calc_BOR (psi gammaln : ℝ → ℝ) (lme p_m1D : List (List ℝ))
    (alpha_post alpha0 : List ℝ) : ℝ :=
  1 / (1 + Real.exp (FE psi gammaln lme p_m1D alpha_post alpha0 - F0 lme))

/-- The dictionary returned by `fit_bms` (lines 357-358). -/
structure BMSResult where
  alpha_post : List ℝ
  p_m1D : List (List ℝ)
  E_r1D : List ℝ
  xp : List ℝ
  bor : ℝ
  pxp : List ℝ

/-- Shallow embedding of `fit_bms` (lines 278-360): build the evidence
matrix, run the Dirichlet posterior fixed point from `alpha0 = ones`,
take the expected frequencies, the sampled exceedance probabilities, the
Bayesian Omnibus Risk and `pxp = (1-bor)*xp + bor/Nm` (line 354). -/
def fit_bms (psi gammaln : ℝ → ℝ) (all_sub_info : List ModelFitInfo)
    (use_bic : Bool) (tol : ℝ) (fuel : ℕ) (samples : List (List ℝ)) : BMSResult :=
  let lme := bmsLme all_sub_info use_bic
  let Nm := all_sub_info.length
  let r := bmsLoop psi lme tol fuel (List.replicate Nm 1)
  let E_r1D := r.1.map (fun a => a / r.1.sum)
  let xp := dirchlet_exceedence Nm samples
  let bor := calc_BOR psi gammaln lme r.2 r.1 (List.replicate Nm 1)
  let pxp := xp.map (fun x => (1 - bor) * x + bor / (Nm : ℝ))
  ⟨r.1, r.2, E_r1D, xp, bor, pxp⟩

/-- Statement of claim C1 as written: for every `fit` call, supplying a
list of priors yields the MAP fit — the call behaves exactly as the same
call with `method = "map"`, whatever `method` was passed. -/
def modeSolelyByPriors : Prop :=
  ∀ (optimizer : (List ℝ → ℝ) → Option (List (ℝ × ℝ)) → List ℝ → List ℝ)
    (loss_fn : List ℝ → List (ℕ × List Unit) → Option (List (ℝ × ℝ)) → ℝ)
    (data : List (ℕ × List Unit)) (bnds : Option (List (ℝ × ℝ)))
    (pbnds : List (ℝ × ℝ)) (p_name : List String)
    (ps : List (ℝ × ℝ)) (method alg : String)
    (init : Option (List ℝ)) (seed : ℕ),
    fit optimizer loss_fn data bnds pbnds p_name (some ps) method alg init seed =
      fit optimizer loss_fn data bnds pbnds p_name (some ps) "map" alg init seed

/-- Statement of claim C2 as written: the BIC fallback works per unit row
of the evidence matrix — a subject whose row holds a degenerate entry gets
`-0.5*BIC` for every model, and a subject whose row is clean keeps its
Laplace values for every model. -/
def rowWiseBicFallback : Prop :=
  ∀ (fis : List ModelFitInfo) (s : ℕ), s < nSub fis →
    ((∃ fi ∈ fis,
        laplaceEntry fi.n_param (fi.log_post.getD s 0) (fi.detH.getD s 0) = none) →
      (lmeRows fis).getD s [] = fis.map (fun fi => -(1 / 2) * fi.bic.getD s 0)) ∧
    ((∀ fi ∈ fis,
        laplaceEntry fi.n_param (fi.log_post.getD s 0) (fi.detH.getD s 0) ≠ none) →
      (lmeRows fis).getD s [] = fis.map (fun fi =>
        fi.log_post.getD s 0 + (1 / 2) * ((fi.n_param : ℝ) * Real.log (2 * Real.pi)
          - Real.log (fi.detH.getD s 0))))

/-- Statement of claim C3 as written: the checkpoint persisted on the
terminal EM iteration holds the per-unit collection together with the
reserved group record. -/
def terminalDumpHasGroup : Prop :=
  ∀ (C : HierCtx) (init : Option (List ℝ × List ℝ)) (plb pub : List ℝ),
    ∃ g : GroupFit,
      (fit_hier C init plb pub).dumps.getLast? =
        some ((fit_hier C init plb pub).ret.1, some g)

/-- Statement of claim C4 as written: after every EM iteration the group
LME equals the per-unit Laplace sum (failed-`slogdet` units dropped) minus
`n_param * log` of the TOTAL number of observation rows summed across all
units. -/
def lmeUsesTotalRows : Prop :=
  ∀ (C : HierCtx) (mus0 vs0 : List ℝ) (n : ℕ), 1 ≤ n →
    (hierState C mus0 vs0 n).1 =
      laplaceSum C (hierState C mus0 vs0 (n - 1)).2.1 (hierState C mus0 vs0 (n - 1)).2.2
        - (C.n_param : ℝ) * Real.log (((C.data.map Prod.snd).sum : ℕ) : ℝ)

/-- A trivial optimizer used for concrete instantiations: returns the
initial point unchanged (scipy's routine on an already optimal point). -/
def optId : (List ℝ → ℝ) → Option (List (ℝ × ℝ)) → List ℝ → List ℝ := fun _ _ x0 => x0

/-- A constant-zero loss over unit-typed rows, for concrete instantiations. -/
def lossZero : List ℝ → List (ℕ × List Unit) → Option (List (ℝ × ℝ)) → ℝ := fun _ _ _ => 0

/-- A loss that only senses whether priors were passed, for concrete
instantiations that separate MAP from MLE behavior. -/
def lossPrior : List ℝ → List (ℕ × List Unit) → Option (List (ℝ × ℝ)) → ℝ :=
  fun _ _ pp => if pp.isSome then 1 else 0

/-- A concrete per-unit fit outcome whose `slogdet` computation failed. -/
def subFitNoH : SubFit := ⟨[0], [0], 0, none⟩

/-- A concrete per-unit fit outcome with `slogdet` value `0`. -/
def subFitH0 : SubFit := ⟨[0], [0], 0, some 0⟩

/-- A concrete one-unit, one-parameter hierarchical context with
`max_iter = 1`. -/
def hierCtx1 : HierCtx := ⟨1, [(0, 1)], fun _ _ => subFitNoH, 1, 1⟩

/-- A concrete two-unit context whose units carry different row counts
(1 and 3), every unit fitting to `subFitH0`. -/
def hierCtx2 : HierCtx := ⟨1, [(0, 1), (1, 3)], fun _ _ => subFitH0, 1, 10⟩

/-- A concrete one-model fit record over two subjects: subject 0 carries a
negative Hessian determinant (degenerate log), subject 1 a clean one. -/
def lmeFi : ModelFitInfo := ⟨[0, 0], [-1, 1], 1, [5, 0]⟩

/-- A concrete one-model fit record over one subject with a clean
(positive-determinant) Hessian. -/
def cleanFi : ModelFitInfo := ⟨[0], [1], 1, [3]⟩

end

/-- C1, counterexample: the mode of `fit` is NOT determined solely by
whether priors are supplied — with `method = "mle"` (the default) the
priors are discarded at line 160, so a prior-sensitive loss is optimized
in MLE form even though priors were passed. -/
theorem fit_mode_not_solely_priors : ¬ modeSolelyByPriors := by
  intro h
  have h2 := h optId lossPrior [] none [] [] [(0, 1)] "mle" "Nelder-Mead" none 0
  have h3 := congrArg FitRes.log_post h2
  simp [fit, lossPrior] at h3

/-- C1 (amended): the mode of `fit` is MAP exactly when priors are supplied
AND `method ≠ "mle"`; with `method = "mle"` supplied priors are discarded
(the call equals the prior-free call), omitting priors yields the MLE fit
under every method, and in the MAP case the optimized objective is the
loss evaluated with the supplied priors. -/
theorem fit_mode_map_iff {ρ : Type}
    (optimizer : (List ℝ → ℝ) → Option (List (ℝ × ℝ)) → List ℝ → List ℝ)
    (loss_fn : List ℝ → List (ℕ × List ρ) → Option (List (ℝ × ℝ)) → ℝ)
    (data : List (ℕ × List ρ)) (bnds : Option (List (ℝ × ℝ)))
    (pbnds : List (ℝ × ℝ)) (p_name : List String) (ps : List (ℝ × ℝ))
    (method alg : String) (init : Option (List ℝ)) (seed : ℕ)
    (h : method ≠ "mle") :
    fit optimizer loss_fn data bnds pbnds p_name (some ps) method alg init seed =
      fit optimizer loss_fn data bnds pbnds p_name (some ps) "map" alg init seed ∧
    fit optimizer loss_fn data bnds pbnds p_name (some ps) "mle" alg init seed =
      fit optimizer loss_fn data bnds pbnds p_name none "mle" alg init seed ∧
    fit optimizer loss_fn data bnds pbnds p_name none method alg init seed =
      fit optimizer loss_fn data bnds pbnds p_name none "mle" alg init seed ∧
    (fit optimizer loss_fn data bnds pbnds p_name (some ps) method alg init seed).log_post =
      -loss_fn (optimizer (fun x => loss_fn x data (some ps))
          (if alg = "BFGS" then none else bnds) (fitParam0 init seed pbnds))
        data (some ps) := by
  refine ⟨?_, ?_, ?_, ?_⟩ <;> simp [fit, h]

/-- C1 witness: the amended statement at a concrete call. -/
theorem fit_mode_map_iff_witness :
    (("map" : String) ≠ "mle") ∧
    (fit optId lossZero [] none [] [] (some [(0, 1)]) "map" "Nelder-Mead" none 0 =
      fit optId lossZero [] none [] [] (some [(0, 1)]) "map" "Nelder-Mead" none 0 ∧
    fit optId lossZero [] none [] [] (some [(0, 1)]) "mle" "Nelder-Mead" none 0 =
      fit optId lossZero [] none [] [] none "mle" "Nelder-Mead" none 0 ∧
    fit optId lossZero [] none [] [] none "map" "Nelder-Mead" none 0 =
      fit optId lossZero [] none [] [] none "mle" "Nelder-Mead" none 0 ∧
    (fit optId lossZero [] none [] [] (some [(0, 1)]) "map" "Nelder-Mead" none 0).log_post =
      -lossZero (optId (fun x => lossZero x [] (some [(0, 1)]))
          (if ("Nelder-Mead" : String) = "BFGS" then none else none)
          (fitParam0 none 0 []))
        [] (some [(0, 1)])) :=
  ⟨by decide, fit_mode_map_iff optId lossZero
    [] none [] [] [(0, 1)] "map" "Nelder-Mead" none 0 (by decide)⟩

/-- Helper: every entry of a list clipped from below at `1e-5` is at least
`1e-5`. -/
lemma le_getD_map_max (l : List ℝ) (i : ℕ) (hi : i < l.length) :
    (1e-5 : ℝ) ≤ (l.map (fun x => max x 1e-5)).getD i 0 := by
  induction l generalizing i with
  | nil => simp at hi
  | cons a t ih =>
    cases i with
    | zero => simp
    | succ j => simpa using ih j (by simpa using hi)

/-- C6: after every EM iteration of `fit_hier` (`n ≥ 1`), every entry of
the group variance vector is at least the configured floor `1e-5`, by the
clip at line 105. -/
theorem hier_group_var_floor (C : HierCtx) (mus0 vs0 : List ℝ) (n : ℕ)
    (hn : 1 ≤ n) (i : ℕ) (hi : i < (hierState C mus0 vs0 n).2.2.length) :
    (1e-5 : ℝ) ≤ (hierState C mus0 vs0 n).2.2.getD i 0 := by
  cases n with
  | zero => exact absurd hn (by omega)
  | succ m =>
    simp only [hierState, hierIter] at hi ⊢
    rw [List.length_map] at hi
    exact le_getD_map_max _ i hi

/-- C6 witness: the floor holds for a concrete one-unit context after the
first iteration. -/
theorem hier_group_var_floor_witness :
    (1 : ℕ) ≤ 1 ∧ (1e-5 : ℝ) ≤ ((hierState hierCtx1 [0] [0] 1).2.2).getD 0 0 :=
  ⟨by decide, hier_group_var_floor hierCtx1 [0] [0] 1 (by decide) 0 (by decide)⟩

/-- Helper: the selection fold of `fit_parallel`, started on an incumbent
`b`, returns a result that weakly beats `b` and every scanned restart, and
that is either `b` itself or the first scanned restart strictly beating
`b` and everything scanned before it. -/
lemma bestStep_foldl (l : List FitRes) (b : FitRes) :
    ∃ res, l.foldl bestStep (some b) = some res ∧
      -res.log_post ≤ -b.log_post ∧
      (∀ x ∈ l, -res.log_post ≤ -x.log_post) ∧
      (res = b ∨ ∃ j, l.get? j = some res ∧
        -res.log_post < -b.log_post ∧
        ∀ i y, i < j → l.get? i = some y → -res.log_post < -y.log_post) := by
  induction l generalizing b with
  | nil => exact ⟨b, rfl, le_refl _, by simp, Or.inl rfl⟩
  | cons a t ih =>
    by_cases hlt : -a.log_post < -b.log_post
    · obtain ⟨res, heq, hle, hall, hdisj⟩ := ih a
      have heq' : (a :: t).foldl bestStep (some b) = some res := by
        simpa [bestStep, hlt] using heq
      refine ⟨res, heq', le_of_lt (lt_of_le_of_lt hle hlt), ?_, Or.inr ?_⟩
      · intro x hx
        rcases List.mem_cons.mp hx with h1 | h1
        · subst h1; exact hle
        · exact hall x h1
      · rcases hdisj with h1 | ⟨j, hj, hstrict, hbefore⟩
        · refine ⟨0, by rw [h1]; rfl, ?_, fun i y hi _ => absurd hi (Nat.not_lt_zero i)⟩
          rw [h1]; exact hlt
        · refine ⟨j + 1, by simpa using hj, lt_trans hstrict hlt, ?_⟩
          intro i y hi hy
          cases i with
          | zero =>
            rw [List.get?_cons_zero] at hy
            injection hy with hy
            subst hy
            exact hstrict
          | succ i' =>
            exact hbefore i' y (by omega) (by simpa using hy)
    · obtain ⟨res, heq, hle, hall, hdisj⟩ := ih b
      have heq' : (a :: t).foldl bestStep (some b) = some res := by
        simpa [bestStep, hlt] using heq
      refine ⟨res, heq', hle, ?_, ?_⟩
      · intro x hx
        rcases List.mem_cons.mp hx with h1 | h1
        · subst h1; exact le_trans hle (le_of_not_lt hlt)
        · exact hall x h1
      · rcases hdisj with h1 | ⟨j, hj, hstrict, hbefore⟩
        · exact Or.inl h1
        · refine Or.inr ⟨j + 1, by simpa using hj, hstrict, ?_⟩
          intro i y hi hy
          cases i with
          | zero =>
            rw [List.get?_cons_zero] at hy
            injection hy with hy
            subst hy
            exact lt_of_lt_of_le hstrict (le_of_not_lt hlt)
          | succ i' =>
            exact hbefore i' y (by omega) (by simpa using hy)

/-- C5: `fit_parallel` runs restart `i` at seed `base + 2*i` and returns
the restart of maximal log-posterior (minimal loss); on ties the smallest
restart index wins. -/
theorem fit_parallel_selects_first_best {ρ : Type}
    (optimizer : (List ℝ → ℝ) → Option (List (ℝ × ℝ)) → List ℝ → List ℝ)
    (loss_fn : List ℝ → List (ℕ × List ρ) → Option (List (ℝ × ℝ)) → ℝ)
    (data : List (ℕ × List ρ)) (bnds : Option (List (ℝ × ℝ)))
    (pbnds : List (ℝ × ℝ)) (p_name : List String)
    (p_priors : Option (List (ℝ × ℝ))) (method alg : String)
    (init : Option (List ℝ)) (seed n_fits : ℕ) (h : 1 ≤ n_fits) :
    ∃ j, j < n_fits ∧
      fit_parallel optimizer loss_fn data bnds pbnds p_name p_priors method alg
          init seed n_fits =
        some (fit optimizer loss_fn data bnds pbnds p_name p_priors method alg
          init (seed + 2 * j)) ∧
      (∀ i, i < n_fits →
        (fit optimizer loss_fn data bnds pbnds p_name p_priors method alg
            init (seed + 2 * i)).log_post ≤
          (fit optimizer loss_fn data bnds pbnds p_name p_priors method alg
            init (seed + 2 * j)).log_post) ∧
      (∀ i, i < j →
        (fit optimizer loss_fn data bnds pbnds p_name p_priors method alg
            init (seed + 2 * i)).log_post <
          (fit optimizer loss_fn data bnds pbnds p_name p_priors method alg
            init (seed + 2 * j)).log_post) := by
  set g := fun i => fit optimizer loss_fn data bnds pbnds p_name p_priors method alg
    init (seed + 2 * i) with hg
  obtain ⟨m, rfl⟩ : ∃ m, n_fits = m + 1 := ⟨n_fits - 1, by omega⟩
  have hlist : (List.range (m + 1)).map g = g 0 :: (List.range m).map (fun i => g (i + 1)) := by
    rw [List.range_succ_eq_map, List.map_cons, List.map_map]
    rfl
  have hfold : fit_parallel optimizer loss_fn data bnds pbnds p_name p_priors method alg
      init seed (m + 1) =
      ((List.range m).map (fun i => g (i + 1))).foldl bestStep (some (g 0)) := by
    show ((List.range (m + 1)).map g).foldl bestStep none = _
    rw [hlist]
    rfl
  obtain ⟨res, heq, hle, hall, hdisj⟩ :=
    bestStep_foldl ((List.range m).map (fun i => g (i + 1))) (g 0)
  have hget : ∀ i, i < m →
      ((List.range m).map (fun i => g (i + 1))).get? i = some (g (i + 1)) := by
    intro i hi
    rw [List.get?_map, List.get?_range hi, Option.map_some']
  rcases hdisj with h1 | ⟨j, hj, hstrict, hbefore⟩
  · refine ⟨0, by omega, ?_, ?_, fun i hi => absurd hi (Nat.not_lt_zero i)⟩
    · rw [hfold, heq, h1]
    · intro i hi
      cases i with
      | zero => exact le_refl _
      | succ i' =>
        have h2 := hall (g (i' + 1)) (List.mem_map_of_mem _ (List.mem_range.mpr (by omega)))
        rw [h1] at h2
        exact neg_le_neg_iff.mp h2
  · have hjm : j < m := by
      obtain ⟨hlt2, -⟩ := List.get?_eq_some.mp hj
      rw [List.length_map, List.length_range] at hlt2
      exact hlt2
    have hres : g (j + 1) = res := by
      rw [hget j hjm] at hj
      exact Option.some_inj.mp hj
    refine ⟨j + 1, by omega, ?_, ?_, ?_⟩
    · rw [hfold, heq, ← hres]
    · intro i hi
      rw [← hres] at hle hall
      cases i with
      | zero => exact neg_le_neg_iff.mp hle
      | succ i' =>
        have h2 := hall (g (i' + 1)) (List.mem_map_of_mem _ (List.mem_range.mpr (by omega)))
        exact neg_le_neg_iff.mp h2
    · intro i hi
      rw [← hres] at hstrict hbefore
      cases i with
      | zero => exact neg_lt_neg_iff.mp hstrict
      | succ i' =>
        have h2 := hbefore i' (g (i' + 1)) (by omega) (hget i' (by omega))
        exact neg_lt_neg_iff.mp h2

/-- C5 witness: the selection statement at a concrete one-restart call. -/
theorem fit_parallel_selects_first_best_witness :
    (1 : ℕ) ≤ 1 ∧
    ∃ j, j < 1 ∧
      fit_parallel optId lossZero [] none [] [] none "mle" "Nelder-Mead" none 0 1 =
        some (fit optId lossZero [] none [] [] none "mle" "Nelder-Mead" none (0 + 2 * j)) ∧
      (∀ i, i < 1 →
        (fit optId lossZero [] none [] [] none "mle" "Nelder-Mead" none (0 + 2 * i)).log_post ≤
          (fit optId lossZero [] none [] [] none "mle" "Nelder-Mead" none (0 + 2 * j)).log_post) ∧
      (∀ i, i < j →
        (fit optId lossZero [] none [] [] none "mle" "Nelder-Mead" none (0 + 2 * i)).log_post <
          (fit optId lossZero [] none [] [] none "mle" "Nelder-Mead" none (0 + 2 * j)).log_post) :=
  ⟨by decide, fit_parallel_selects_first_best optId lossZero [] none [] [] none
    "mle" "Nelder-Mead" none 0 1 (by decide)⟩

/-- Helper: scanning a run of copies of the incumbent never replaces it,
because the selection test is strict. -/
lemma bestStep_foldl_const (b : FitRes) :
    ∀ k, (List.replicate k b).foldl bestStep (some b) = some b := by
  intro k
  induction k with
  | zero => rfl
  | succ n ih =>
    rw [List.replicate_succ, List.foldl_cons]
    have hb : bestStep (some b) b = some b := by simp [bestStep]
    rw [hb, ih]

/-- C10: with a truthy `init`, the per-restart seed no longer affects the
`fit` result at all (every restart starts from the same supplied point,
line 168), so `fit_parallel` returns exactly the single-`fit` result at
the base seed for every `n_fits ≥ 1` — the multi-start guard is void. -/
theorem fit_parallel_init_degenerate {ρ : Type}
    (optimizer : (List ℝ → ℝ) → Option (List (ℝ × ℝ)) → List ℝ → List ℝ)
    (loss_fn : List ℝ → List (ℕ × List ρ) → Option (List (ℝ × ℝ)) → ℝ)
    (data : List (ℕ × List ρ)) (bnds : Option (List (ℝ × ℝ)))
    (pbnds : List (ℝ × ℝ)) (p_name : List String)
    (p_priors : Option (List (ℝ × ℝ))) (method alg : String)
    (init : Option (List ℝ)) (seed n_fits : ℕ)
    (h : initTruthy init = true) (hn : 1 ≤ n_fits) :
    (∀ s s', fit optimizer loss_fn data bnds pbnds p_name p_priors method alg init s =
      fit optimizer loss_fn data bnds pbnds p_name p_priors method alg init s') ∧
    fit_parallel optimizer loss_fn data bnds pbnds p_name p_priors method alg
        init seed n_fits =
      some (fit optimizer loss_fn data bnds pbnds p_name p_priors method alg init seed) := by
  have hseed : ∀ s s',
      fit optimizer loss_fn data bnds pbnds p_name p_priors method alg init s =
      fit optimizer loss_fn data bnds pbnds p_name p_priors method alg init s' := by
    intro s s'
    simp [fit, fitParam0, h]
  refine ⟨hseed, ?_⟩
  obtain ⟨m, rfl⟩ : ∃ m, n_fits = m + 1 := ⟨n_fits - 1, by omega⟩
  have hmap : (List.range (m + 1)).map
      (fun i => fit optimizer loss_fn data bnds pbnds p_name p_priors method alg
        init (seed + 2 * i)) =
      List.replicate (m + 1)
        (fit optimizer loss_fn data bnds pbnds p_name p_priors method alg init seed) := by
    rw [List.map_congr_left (fun i _ => hseed (seed + 2 * i) seed)]
    rw [List.map_const', List.length_range]
  show ((List.range (m + 1)).map
      (fun i => fit optimizer loss_fn data bnds pbnds p_name p_priors method alg
        init (seed + 2 * i))).foldl bestStep none = _
  rw [hmap, List.replicate_succ, List.foldl_cons]
  exact bestStep_foldl_const _ m

/-- C10 witness: the degenerate multi-start statement at a concrete call
with a supplied (truthy) initial point. -/
theorem fit_parallel_init_degenerate_witness :
    initTruthy (some [(1 : ℝ)]) = true ∧ (1 : ℕ) ≤ 1 ∧
    ((∀ s s', fit optId lossZero [] none [] [] none "mle" "Nelder-Mead" (some [1]) s =
      fit optId lossZero [] none [] [] none "mle" "Nelder-Mead" (some [1]) s') ∧
    fit_parallel optId lossZero [] none [] [] none "mle" "Nelder-Mead" (some [1]) 0 1 =
      some (fit optId lossZero [] none [] [] none "mle" "Nelder-Mead" (some [1]) 0)) :=
  ⟨by decide, by decide, fit_parallel_init_degenerate optId lossZero [] none [] [] none
    "mle" "Nelder-Mead" (some [1]) 0 1 (by decide) (by decide)⟩

/-- Helper: one modelled `rand()` draw lies in `[0, 1)`. -/
lemma rand01_mem (s : ℕ) : 0 ≤ rand01 s ∧ rand01 s < 1 := by
  constructor
  · exact div_nonneg (Nat.cast_nonneg _) (by norm_num)
  · rw [rand01, div_lt_one (by norm_num)]
    have h := Nat.mod_lt s (show 0 < 2 ^ 53 by norm_num)
    calc ((s % 2 ^ 53 : ℕ) : ℝ) < ((2 ^ 53 : ℕ) : ℝ) := by exact_mod_cast h
      _ = 2 ^ 53 := by norm_num

/-- Helper: each coordinate of the seeded random initial point stays inside
its plausible bound interval. -/
lemma randInitAux_mem (pbnds : List (ℝ × ℝ)) :
    ∀ (s : ℕ) (i : ℕ) (lo hi : ℝ), pbnds.get? i = some (lo, hi) → lo ≤ hi →
      lo ≤ (randInitAux s pbnds).getD i 0 ∧ (randInitAux s pbnds).getD i 0 ≤ hi := by
  induction pbnds with
  | nil => intro s i lo hi hget; simp at hget
  | cons p t ih =>
    intro s i lo hi hget hle
    cases i with
    | zero =>
      rw [List.get?_cons_zero] at hget
      injection hget with hget
      subst hget
      obtain ⟨hr0, hr1⟩ := rand01_mem (rsNext s)
      have hw : 0 ≤ hi - lo := sub_nonneg.mpr hle
      have hm0 : 0 ≤ (hi - lo) * rand01 (rsNext s) := mul_nonneg hw hr0
      have hm1 : (hi - lo) * rand01 (rsNext s) ≤ hi - lo :=
        mul_le_of_le_one_right hw (le_of_lt hr1)
      constructor
      · show lo ≤ ((lo + (hi - lo) * rand01 (rsNext s)) :: randInitAux (rsNext s) t).getD 0 0
        rw [List.getD_cons_zero]
        linarith
      · show ((lo + (hi - lo) * rand01 (rsNext s)) :: randInitAux (rsNext s) t).getD 0 0 ≤ hi
        rw [List.getD_cons_zero]
        linarith
    | succ j =>
      rw [List.get?_cons_succ] at hget
      have := ih (rsNext s) j lo hi hget hle
      constructor
      · show lo ≤ ((p.1 + (p.2 - p.1) * rand01 (rsNext s)) :: randInitAux (rsNext s) t).getD (j + 1) 0
        rw [List.getD_cons_succ]
        exact this.1
      · show ((p.1 + (p.2 - p.1) * rand01 (rsNext s)) :: randInitAux (rsNext s) t).getD (j + 1) 0 ≤ hi
        rw [List.getD_cons_succ]
        exact this.2

/-- C7: when no initial point is supplied, the initial point of `fit` is a
pure function of the seed and the plausible bounds (equal seed and bounds
reproduce it exactly), and each coordinate lies within its plausible
bound interval. -/
theorem fit_init_seed_deterministic (seed : ℕ) (pbnds pbnds' : List (ℝ × ℝ))
    (hp : pbnds = pbnds') :
    fitParam0 none seed pbnds = fitParam0 none seed pbnds' ∧
    ∀ i lo hi, pbnds.get? i = some (lo, hi) → lo ≤ hi →
      lo ≤ (fitParam0 none seed pbnds).getD i 0 ∧
      (fitParam0 none seed pbnds).getD i 0 ≤ hi := by
  constructor
  · rw [hp]
  · intro i lo hi hget hle
    show lo ≤ (randInitAux seed pbnds).getD i 0 ∧ (randInitAux seed pbnds).getD i 0 ≤ hi
    exact randInitAux_mem pbnds seed i lo hi hget hle

/-- C7 witness: the initialization statement at a concrete seed and bound
list. -/
theorem fit_init_seed_deterministic_witness :
    ([((0 : ℝ), (1 : ℝ))] = [((0 : ℝ), (1 : ℝ))]) ∧
    (fitParam0 none 2021 [((0 : ℝ), (1 : ℝ))] = fitParam0 none 2021 [((0 : ℝ), (1 : ℝ))] ∧
    ∀ i lo hi, [((0 : ℝ), (1 : ℝ))].get? i = some (lo, hi) → lo ≤ hi →
      lo ≤ (fitParam0 none 2021 [((0 : ℝ), (1 : ℝ))]).getD i 0 ∧
      (fitParam0 none 2021 [((0 : ℝ), (1 : ℝ))]).getD i 0 ≤ hi) :=
  ⟨rfl, fit_init_seed_deterministic 2021 [((0 : ℝ), (1 : ℝ))] [((0 : ℝ), (1 : ℝ))] rfl⟩

/-- Helper: full characterization of the EM loop launched from the state
after `epi` iterations with sufficient fuel: it stops at the first later
iteration passing the `done` test of line 113 (at the latest at
`max (epi+1) max_iter`), returns the terminal per-unit collection with the
terminal group record attached, and every checkpoint it persists carries
no group entry. -/
lemma hierLoop_run (C : HierCtx) (mus0 vs0 : List ℝ) :
    ∀ fuel epi dumps, 1 ≤ fuel → C.max_iter ≤ epi + fuel →
    ∃ r, hierLoop C fuel epi (hierState C mus0 vs0 epi).1
        (hierState C mus0 vs0 epi).2.1 (hierState C mus0 vs0 epi).2.2 dumps = r ∧
      epi < r.iters ∧
      doneAt C mus0 vs0 r.iters ∧
      (∀ j, epi < j → j < r.iters → ¬ doneAt C mus0 vs0 j) ∧
      r.iters ≤ max (epi + 1) C.max_iter ∧
      r.ret.1 = (hierIter C (hierState C mus0 vs0 (r.iters - 1)).2.1
        (hierState C mus0 vs0 (r.iters - 1)).2.2).1 ∧
      r.ret.2 = some ⟨(hierState C mus0 vs0 r.iters).1,
        (hierState C mus0 vs0 r.iters).2.1, (hierState C mus0 vs0 r.iters).2.2⟩ ∧
      r.dumps.getLast? = some (r.ret.1, none) ∧
      (∀ c ∈ r.dumps, c ∈ dumps.reverse ∨ c.2 = none) := by
  intro fuel
  induction fuel with
  | zero => intro epi dumps h1 _; omega
  | succ fuel ih =>
    intro epi dumps _ h2
    set st := hierState C mus0 vs0 with hst
    set r1 := hierIter C (st epi).2.1 (st epi).2.2 with hr1
    have hunfold : hierLoop C (fuel + 1) epi (st epi).1 (st epi).2.1 (st epi).2.2 dumps =
        if |r1.2.2.2 - (st epi).1| < C.tol ∨ C.max_iter ≤ epi + 1 then
          ⟨((r1.1, (none : Option GroupFit)) :: dumps).reverse,
            (r1.1, some ⟨r1.2.2.2, r1.2.1, r1.2.2.1⟩), epi + 1⟩
        else hierLoop C fuel (epi + 1) r1.2.2.2 r1.2.1 r1.2.2.1
          ((r1.1, (none : Option GroupFit)) :: dumps) := rfl
    have hdoneiff : doneAt C mus0 vs0 (epi + 1) ↔
        (|r1.2.2.2 - (st epi).1| < C.tol ∨ C.max_iter ≤ epi + 1) := Iff.rfl
    by_cases hdone : |r1.2.2.2 - (st epi).1| < C.tol ∨ C.max_iter ≤ epi + 1
    · refine ⟨_, by rw [hunfold, if_pos hdone], ?_, hdoneiff.mpr hdone, ?_,
        le_max_left _ _, rfl, rfl, ?_, ?_⟩
      · show epi < epi + 1
        omega
      · intro j hj1 hj2
        have hj2' : j < epi + 1 := hj2
        omega
      · show (((r1.1, (none : Option GroupFit)) :: dumps).reverse).getLast? = some (r1.1, none)
        rw [List.reverse_cons, List.getLast?_concat]
      · intro c hc
        rw [List.reverse_cons, List.mem_append] at hc
        rcases hc with hc | hc
        · exact Or.inl hc
        · rw [List.mem_singleton] at hc
          subst hc
          exact Or.inr rfl
    · have hlt : epi + 1 < C.max_iter := by
        rcases not_or.mp hdone with ⟨-, h4⟩
        omega
      obtain ⟨r, hr, hi1, hi2, hi3, hi4, hi5, hi6, hi7, hi8⟩ :=
        ih (epi + 1) ((r1.1, (none : Option GroupFit)) :: dumps) (by omega) (by omega)
      refine ⟨r, ?_, by omega, hi2, ?_, ?_, hi5, hi6, hi7, ?_⟩
      · rw [hunfold, if_neg hdone]
        exact hr
      · intro j hj1 hj2
        rcases Nat.lt_or_ge (epi + 1) j with h5 | h5
        · exact hi3 j h5 hj2
        · have hj : j = epi + 1 := by omega
          subst hj
          exact fun hd => hdone (hdoneiff.mp hd)
      · have h6 : max (epi + 1 + 1) C.max_iter = C.max_iter := max_eq_right (by omega)
        have h7 : max (epi + 1) C.max_iter = C.max_iter := max_eq_right (by omega)
        rw [h6] at hi4
        rw [h7]
        exact hi4
      · intro c hc
        rcases hi8 c hc with h8 | h8
        · rw [List.reverse_cons, List.mem_append] at h8
          rcases h8 with h8 | h8
          · exact Or.inl h8
          · rw [List.mem_singleton] at h8
            subst h8
            exact Or.inr rfl
        · exact Or.inr h8

/-- C9: the EM loop of `fit_hier` always terminates; it runs at least one
iteration, at most `max_iter` iterations, its terminal iteration passes
the `done` test `|ΔLME| < tol or epi ≥ max_iter`, and no earlier iteration
does (it stops as soon as the test first holds). -/
theorem fit_hier_em_terminates (C : HierCtx) (init : Option (List ℝ × List ℝ))
    (plb pub : List ℝ) (h : 1 ≤ C.max_iter) :
    1 ≤ (fit_hier C init plb pub).iters ∧
    (fit_hier C init plb pub).iters ≤ C.max_iter ∧
    doneAt C (hierMus0 init plb pub) (hierVs0 init plb pub) (fit_hier C init plb pub).iters ∧
    ∀ j, 1 ≤ j → j < (fit_hier C init plb pub).iters →
      ¬ doneAt C (hierMus0 init plb pub) (hierVs0 init plb pub) j := by
  obtain ⟨r, hr, h1, h2, h3, h4, -, -, -, -⟩ :=
    hierLoop_run C (hierMus0 init plb pub) (hierVs0 init plb pub)
      (C.max_iter + 1) 0 [] (by omega) (by omega)
  have hfit : fit_hier C init plb pub = r := hr
  rw [hfit]
  have h5 : max (0 + 1) C.max_iter = C.max_iter := max_eq_right (by omega)
  rw [h5] at h4
  exact ⟨by omega, h4, h2, fun j hj1 hj2 => h3 j (by omega) hj2⟩

/-- C9 witness: the termination statement at a concrete context with
`max_iter = 1`. -/
theorem fit_hier_em_terminates_witness :
    (1 : ℕ) ≤ hierCtx1.max_iter ∧
    (1 ≤ (fit_hier hierCtx1 none [0] [1]).iters ∧
    (fit_hier hierCtx1 none [0] [1]).iters ≤ hierCtx1.max_iter ∧
    doneAt hierCtx1 (hierMus0 none [0] [1]) (hierVs0 none [0] [1])
      (fit_hier hierCtx1 none [0] [1]).iters ∧
    ∀ j, 1 ≤ j → j < (fit_hier hierCtx1 none [0] [1]).iters →
      ¬ doneAt hierCtx1 (hierMus0 none [0] [1]) (hierVs0 none [0] [1]) j) :=
  ⟨by decide, fit_hier_em_terminates hierCtx1 none [0] [1] (by decide)⟩

/-- C3, counterexample: the checkpoint persisted on the terminal iteration
does NOT contain the group record — the `pickle.dump` of line 110 runs
before the `'group'` entry is attached at line 120, which only reaches the
in-memory collection returned by `fit_hier`. -/
theorem terminal_dump_lacks_group : ¬ terminalDumpHasGroup := by
  intro h
  obtain ⟨g, hg⟩ := h hierCtx1 none [0] [1]
  obtain ⟨r, hr, -, -, -, -, -, -, h7, -⟩ :=
    hierLoop_run hierCtx1 (hierMus0 none [0] [1]) (hierVs0 none [0] [1])
      (hierCtx1.max_iter + 1) 0 [] (by omega) (by decide)
  have hfit : fit_hier hierCtx1 none [0] [1] = r := hr
  rw [hfit, h7] at hg
  simp at hg

/-- C3 (amended): after every iteration — the terminal one included — the
persisted checkpoint holds exactly the per-unit collection keyed by
unit-id with NO group entry; the GroupRecord (group LME, group mean,
group variance of the terminal state) is attached only to the in-memory
collection that `fit_hier` returns. -/
theorem fit_hier_checkpoint_contents (C : HierCtx) (init : Option (List ℝ × List ℝ))
    (plb pub : List ℝ) :
    (fit_hier C init plb pub).dumps.getLast? =
      some ((fit_hier C init plb pub).ret.1, none) ∧
    (∀ c ∈ (fit_hier C init plb pub).dumps, c.2 = none) ∧
    ((fit_hier C init plb pub).ret.1).map Prod.fst = C.sub_lst ∧
    (fit_hier C init plb pub).ret.2 = some
      ⟨(hierState C (hierMus0 init plb pub) (hierVs0 init plb pub)
          (fit_hier C init plb pub).iters).1,
        (hierState C (hierMus0 init plb pub) (hierVs0 init plb pub)
          (fit_hier C init plb pub).iters).2.1,
        (hierState C (hierMus0 init plb pub) (hierVs0 init plb pub)
          (fit_hier C init plb pub).iters).2.2⟩ := by
  obtain ⟨r, hr, -, -, -, -, h5, h6, h7, h8⟩ :=
    hierLoop_run C (hierMus0 init plb pub) (hierVs0 init plb pub)
      (C.max_iter + 1) 0 [] (by omega) (by omega)
  have hfit : fit_hier C init plb pub = r := hr
  rw [hfit]
  refine ⟨h7, ?_, ?_, h6⟩
  · intro c hc
    rcases h8 c hc with h9 | h9
    · simp at h9
    · exact h9
  · rw [h5]
    show (C.sub_lst.map (fun s => (s, C.modelFit s _))).map Prod.fst = C.sub_lst
    rw [List.map_map]
    exact List.map_id _

/-- C3 witness: the amended checkpoint statement at a concrete context. -/
theorem fit_hier_checkpoint_contents_witness :
    (fit_hier hierCtx1 none [0] [1]).dumps.getLast? =
      some ((fit_hier hierCtx1 none [0] [1]).ret.1, none) ∧
    (∀ c ∈ (fit_hier hierCtx1 none [0] [1]).dumps, c.2 = none) ∧
    ((fit_hier hierCtx1 none [0] [1]).ret.1).map Prod.fst = hierCtx1.sub_lst ∧
    (fit_hier hierCtx1 none [0] [1]).ret.2 = some
      ⟨(hierState hierCtx1 (hierMus0 none [0] [1]) (hierVs0 none [0] [1])
          (fit_hier hierCtx1 none [0] [1]).iters).1,
        (hierState hierCtx1 (hierMus0 none [0] [1]) (hierVs0 none [0] [1])
          (fit_hier hierCtx1 none [0] [1]).iters).2.1,
        (hierState hierCtx1 (hierMus0 none [0] [1]) (hierVs0 none [0] [1])
          (fit_hier hierCtx1 none [0] [1]).iters).2.2⟩ :=
  fit_hier_checkpoint_contents hierCtx1 none [0] [1]

/-- Helper: summing a `filterMap` over option values equals summing the
values with failures contributing zero. -/
lemma sum_filterMap_opt {α : Type} (l : List α) (f : α → Option ℝ) :
    (l.filterMap f).sum = (l.map (fun a => (f a).getD 0)).sum := by
  induction l with
  | nil => rfl
  | cons a t ih =>
    cases hf : f a with
    | none =>
      rw [List.filterMap_cons_none hf, List.map_cons, List.sum_cons, ih, hf]
      simp
    | some b =>
      rw [List.filterMap_cons_some hf, List.map_cons, List.sum_cons, List.sum_cons, ih, hf]
      rfl

/-- Helper: the group LME after every iteration `n ≥ 1` is the per-unit
Laplace sum under the priors of that iteration (failed-`slogdet` units
contributing nothing) minus `n_param * log(m_data * n_sub)`. -/
lemma hierState_lme (C : HierCtx) (mus0 vs0 : List ℝ) (n : ℕ) (hn : 1 ≤ n) :
    (hierState C mus0 vs0 n).1 =
      laplaceSum C (hierState C mus0 vs0 (n - 1)).2.1 (hierState C mus0 vs0 (n - 1)).2.2
        - (C.n_param : ℝ) * Real.log ((C.m_data * C.n_sub : ℕ) : ℝ) := by
  cases n with
  | zero => omega
  | succ m =>
    have hstep : (hierState C mus0 vs0 (m + 1)).1 =
        ((C.sub_lst.map (fun s => (s, C.modelFit s
            (hierPriors (hierState C mus0 vs0 m).2.1 (hierState C mus0 vs0 m).2.2)))).filterMap
          (fun it => (it.2.slogdetH).map (fun log_h =>
            it.2.log_post + (1 / 2) * ((C.n_param : ℝ) * Real.log (2 * Real.pi) - log_h)))).sum
        - (C.n_param : ℝ) * Real.log ((C.m_data * C.n_sub : ℕ) : ℝ) := rfl
    rw [Nat.succ_sub_one, hstep, List.filterMap_map, sum_filterMap_opt]
    congr 1
    unfold laplaceSum
    congr 1
    apply List.map_congr_left
    intro s _
    show ((C.modelFit s (hierPriors (hierState C mus0 vs0 m).2.1
        (hierState C mus0 vs0 m).2.2)).slogdetH.map (fun log_h =>
        (C.modelFit s (hierPriors (hierState C mus0 vs0 m).2.1
          (hierState C mus0 vs0 m).2.2)).log_post +
        (1 / 2) * ((C.n_param : ℝ) * Real.log (2 * Real.pi) - log_h))).getD 0 = _
    cases (C.modelFit s (hierPriors (hierState C mus0 vs0 m).2.1
      (hierState C mus0 vs0 m).2.2)).slogdetH <;> rfl

/-- C4, counterexample: the LME penalty is NOT `k * ln` of the total row
count summed across units — the code uses `m_data * n_sub` (first unit's
row count times the number of units, line 106), which differs as soon as
units carry unequal row counts (here 1 and 3 rows: `ln 2 ≠ ln 4`). -/
theorem hier_lme_not_total_rows : ¬ lmeUsesTotalRows := by
  intro h
  have h2 := h hierCtx2 [0] [1] 1 (by norm_num)
  have h3 := hierState_lme hierCtx2 [0] [1] 1 (by norm_num)
  rw [h3] at h2
  have h5 : Real.log 2 < Real.log 4 := Real.log_lt_log (by norm_num) (by norm_num)
  have h6 : ((hierCtx2.m_data * hierCtx2.n_sub : ℕ) : ℝ) = 2 := by
    norm_num [hierCtx2, HierCtx.m_data, HierCtx.n_sub]
  have h7 : (((hierCtx2.data.map Prod.snd).sum : ℕ) : ℝ) = 4 := by
    norm_num [hierCtx2]
  rw [h6, h7] at h2
  have h8 : (hierCtx2.n_param : ℝ) = 1 := by norm_num [hierCtx2]
  rw [h8] at h2
  linarith

/-- C4 (amended): after every EM iteration the group LME equals the sum
over units of `log_post + 0.5*(k*ln(2π) − ln|H|)` — a unit whose Hessian
log-determinant computation failed being dropped from the sum — minus
`k * ln(m_data * n_sub)`, where `m_data` is the FIRST unit's row count and
`n_sub` the number of units (not the total row count across units). -/
theorem hier_lme_formula (C : HierCtx) (mus0 vs0 : List ℝ) (n : ℕ) (hn : 1 ≤ n) :
    (hierState C mus0 vs0 n).1 =
      laplaceSum C (hierState C mus0 vs0 (n - 1)).2.1 (hierState C mus0 vs0 (n - 1)).2.2
        - (C.n_param : ℝ) * Real.log ((C.m_data * C.n_sub : ℕ) : ℝ) :=
  hierState_lme C mus0 vs0 n hn

/-- C4 witness: the amended LME formula at a concrete context after the
first iteration. -/
theorem hier_lme_formula_witness :
    (1 : ℕ) ≤ 1 ∧
    (hierState hierCtx2 [0] [1] 1).1 =
      laplaceSum hierCtx2 (hierState hierCtx2 [0] [1] (1 - 1)).2.1
          (hierState hierCtx2 [0] [1] (1 - 1)).2.2
        - (hierCtx2.n_param : ℝ) * Real.log ((hierCtx2.m_data * hierCtx2.n_sub : ℕ) : ℝ) :=
  ⟨by decide, hier_lme_formula hierCtx2 [0] [1] 1 (by decide)⟩

/-- Helper: the successful element of a list under `get?` is its `getD`
value. -/
lemma get?_eq_some_getD (l : List ℝ) (s : ℕ) (h : s < l.length) :
    l.get? s = some (l.getD s 0) := by
  rw [List.get?_eq_get h, List.getD_eq_get l 0 h]

/-- Helper: `getD` through `map` at an index the source list populates. -/
lemma getD_map_eq {α β : Type} (l : List α) (g : α → β) (m : ℕ) (a : α) (d : β)
    (hm : l.get? m = some a) : (l.map g).getD m d = g a := by
  rw [List.getD_eq_getD_get?, List.get?_map, hm]
  rfl

/-- Helper: entry `t` of a `zipWith` over two lists that cover index `t`. -/
lemma get?_zipWith_opt (f : ℝ → ℝ → Option ℝ) :
    ∀ (as bs : List ℝ) (t : ℕ), t < as.length → t < bs.length →
      (List.zipWith f as bs).get? t = some (f (as.getD t 0) (bs.getD t 0)) := by
  intro as
  induction as with
  | nil => intro bs t ht _; simp at ht
  | cons a as ih =>
    intro bs t ht hb
    cases bs with
    | nil => simp at hb
    | cons b bs =>
      cases t with
      | zero => rfl
      | succ t' =>
        rw [List.zipWith_cons_cons, List.get?_cons_succ, List.getD_cons_succ,
          List.getD_cons_succ]
        exact ih bs t' (by simpa using ht) (by simpa using hb)

/-- Helper: the degeneracy scan of `calc_lme` fires exactly when some
index holds a degenerate Laplace entry. -/
lemma zipWith_any_none_iff (f : ℝ → ℝ → Option ℝ) (as bs : List ℝ)
    (hlen : bs.length = as.length) :
    (List.zipWith f as bs).any Option.isNone = true ↔
      ∃ t, t < as.length ∧ f (as.getD t 0) (bs.getD t 0) = none := by
  rw [List.any_eq_true]
  constructor
  · rintro ⟨x, hx, hpx⟩
    obtain ⟨t, ht⟩ := List.mem_iff_get?.mp hx
    obtain ⟨hlt, -⟩ := List.get?_eq_some.mp ht
    rw [List.length_zipWith, hlen, min_self] at hlt
    rw [get?_zipWith_opt f as bs t hlt (by omega)] at ht
    refine ⟨t, hlt, ?_⟩
    have hx2 : x = f (as.getD t 0) (bs.getD t 0) := by
      injection ht with ht2
      exact ht2.symm
    rw [← hx2]
    exact Option.isNone_iff_eq_none.mp hpx
  · rintro ⟨t, htl, hnone⟩
    refine ⟨f (as.getD t 0) (bs.getD t 0),
      List.mem_iff_get?.mpr ⟨t, get?_zipWith_opt f as bs t htl (by omega)⟩, ?_⟩
    rw [hnone]
    rfl

/-- Helper: a non-degenerate Laplace entry carries exactly the value
`log_post + 0.5*(k*ln(2π) − ln(detH))`. -/
lemma laplaceEntry_of_ne_none (k : ℕ) (lp dh : ℝ) (h : laplaceEntry k lp dh ≠ none) :
    laplaceEntry k lp dh =
      some (lp + (1 / 2) * ((k : ℝ) * Real.log (2 * Real.pi) - Real.log dh)) := by
  by_cases hdh : dh ≤ 0
  · exact absurd (by simp [laplaceEntry, logNp, hdh]) h
  · simp [laplaceEntry, logNp, hdh]

/-- C2, counterexample: the BIC fallback is NOT per unit row — `calc_lme`
handles one model across ALL subjects, so one subject's degenerate Hessian
replaces every subject's entry for that model; here subject 1's clean
Laplace value is overwritten even though its own row is clean. -/
theorem calc_lme_not_rowwise : ¬ rowWiseBicFallback := by
  intro h
  obtain ⟨-, h2⟩ := h [lmeFi] 1 (by decide)
  have hpre : ∀ fi ∈ [lmeFi],
      laplaceEntry fi.n_param (fi.log_post.getD 1 0) (fi.detH.getD 1 0) ≠ none := by
    intro fi hfi
    rw [List.mem_singleton] at hfi
    subst hfi
    norm_num [lmeFi, laplaceEntry, logNp]
    exact Option.some_ne_none _
  have h3 := h2 hpre
  have h4 : (lmeRows [lmeFi]).getD 1 [] = [(0 : ℝ)] := by
    norm_num [lmeRows, nSub, lmeFi, calc_lme, laplaceEntry, logNp]
  rw [h4] at h3
  simp only [List.map_cons, List.map_nil, List.cons.injEq, and_true] at h3
  rw [show lmeFi.log_post.getD 1 0 = (0 : ℝ) from rfl,
    show lmeFi.detH.getD 1 0 = (1 : ℝ) from rfl,
    show lmeFi.n_param = 1 from rfl] at h3
  rw [Real.log_one] at h3
  norm_num at h3
  rcases h3 with h3 | h3 | h3 <;> linarith [Real.pi_gt_three]

/-- C2 (amended): the BIC fallback of `calc_lme` is per MODEL column of
the evidence matrix: if any subject's Laplace entry for model `m` is
degenerate, every subject's entry for model `m` becomes `-0.5*BIC` of that
subject under model `m`; if no subject's entry for model `m` degenerates,
every subject keeps the Laplace value for model `m`.  Other models'
columns are computed independently either way. -/
theorem calc_lme_columnwise (fis : List ModelFitInfo) (m : ℕ) (fi : ModelFitInfo)
    (hm : fis.get? m = some fi) (s : ℕ) (hs : s < nSub fis)
    (hsl : s < fi.log_post.length)
    (hd : fi.detH.length = fi.log_post.length)
    (hb : fi.bic.length = fi.log_post.length) :
    ((∃ t, t < fi.log_post.length ∧
        laplaceEntry fi.n_param (fi.log_post.getD t 0) (fi.detH.getD t 0) = none) →
      ((lmeRows fis).getD s []).getD m 0 = -(1 / 2) * fi.bic.getD s 0) ∧
    ((∀ t, t < fi.log_post.length →
        laplaceEntry fi.n_param (fi.log_post.getD t 0) (fi.detH.getD t 0) ≠ none) →
      ((lmeRows fis).getD s []).getD m 0 =
        fi.log_post.getD s 0 + (1 / 2) * ((fi.n_param : ℝ) * Real.log (2 * Real.pi)
          - Real.log (fi.detH.getD s 0))) := by
  have hrow : (lmeRows fis).getD s [] = fis.map (fun fi => (calc_lme fi).getD s 0) :=
    getD_map_eq (List.range (nSub fis)) _ s s [] (List.get?_range hs)
  have hentry : (fis.map (fun fi => (calc_lme fi).getD s 0)).getD m 0 =
      (calc_lme fi).getD s 0 :=
    getD_map_eq fis _ m fi 0 hm
  rw [hrow, hentry]
  constructor
  · rintro ⟨t, htl, hnone⟩
    have hany : (List.zipWith (laplaceEntry fi.n_param) fi.log_post fi.detH).any
        Option.isNone = true :=
      (zipWith_any_none_iff _ _ _ hd).mpr ⟨t, htl, hnone⟩
    show (if (List.zipWith (laplaceEntry fi.n_param) fi.log_post fi.detH).any
        Option.isNone = true then fi.bic.map (fun b => -(1 / 2) * b)
      else (List.zipWith (laplaceEntry fi.n_param) fi.log_post fi.detH).map
        (fun o => o.getD 0)).getD s 0 = -(1 / 2) * fi.bic.getD s 0
    rw [if_pos hany]
    exact getD_map_eq fi.bic _ s (fi.bic.getD s 0) 0 (get?_eq_some_getD fi.bic s (by omega))
  · intro hall
    have hany : ¬ (List.zipWith (laplaceEntry fi.n_param) fi.log_post fi.detH).any
        Option.isNone = true := by
      intro hc
      obtain ⟨t, htl, hnone⟩ := (zipWith_any_none_iff _ _ _ hd).mp hc
      exact hall t htl hnone
    show (if (List.zipWith (laplaceEntry fi.n_param) fi.log_post fi.detH).any
        Option.isNone = true then fi.bic.map (fun b => -(1 / 2) * b)
      else (List.zipWith (laplaceEntry fi.n_param) fi.log_post fi.detH).map
        (fun o => o.getD 0)).getD s 0 = _
    rw [if_neg hany]
    have hget := get?_zipWith_opt (laplaceEntry fi.n_param) fi.log_post fi.detH s hsl (by omega)
    rw [getD_map_eq (List.zipWith (laplaceEntry fi.n_param) fi.log_post fi.detH)
      (fun o => o.getD 0) s _ 0 hget]
    rw [laplaceEntry_of_ne_none _ _ _ (hall s hsl)]
    rfl

/-- C2 witness: the column rule at a concrete clean one-model record. -/
theorem calc_lme_columnwise_witness :
    (∀ t, t < cleanFi.log_post.length →
      laplaceEntry cleanFi.n_param (cleanFi.log_post.getD t 0) (cleanFi.detH.getD t 0) ≠ none) ∧
    ((lmeRows [cleanFi]).getD 0 []).getD 0 0 =
      cleanFi.log_post.getD 0 0 + (1 / 2) * ((cleanFi.n_param : ℝ) * Real.log (2 * Real.pi)
        - Real.log (cleanFi.detH.getD 0 0)) := by
  have hall : ∀ t, t < cleanFi.log_post.length →
      laplaceEntry cleanFi.n_param (cleanFi.log_post.getD t 0) (cleanFi.detH.getD t 0) ≠ none := by
    intro t ht
    have ht0 : t = 0 := by
      have : cleanFi.log_post.length = 1 := by decide
      omega
    subst ht0
    norm_num [cleanFi, laplaceEntry, logNp]
    exact Option.some_ne_none _
  exact ⟨hall, (calc_lme_columnwise [cleanFi] 0 cleanFi rfl 0 (by decide) (by decide)
    (by decide) (by decide)).2 hall⟩

/-- Helper: the argmax-count accumulator keeps its length when every
sample row has the expected width. -/
lemma dirchlet_counts_length (samples : List (List ℝ)) (Nm : ℕ)
    (hlen : ∀ r ∈ samples, r.length = Nm) :
    ∀ acc : List ℝ, acc.length = Nm →
      (samples.foldl (fun acc r =>
        List.zipWith (fun c x => c + if x = rowMax r then (1 : ℝ) else 0) acc r) acc).length
      = Nm := by
  induction samples with
  | nil => intro acc hacc; exact hacc
  | cons r rest ih =>
    intro acc hacc
    rw [List.foldl_cons]
    refine ih (fun q hq => hlen q (List.mem_cons_of_mem r hq)) _ ?_
    rw [List.length_zipWith, hacc, hlen r (List.mem_cons_self r rest), min_self]

/-- Helper: summing a `zipWith` that adds a transformed row onto an
accumulator of the same length splits as the two sums. -/
lemma zipWith_add_sum (g : ℝ → ℝ) :
    ∀ (acc r : List ℝ), acc.length = r.length →
      (List.zipWith (fun c x => c + g x) acc r).sum = acc.sum + (r.map g).sum := by
  intro acc
  induction acc with
  | nil =>
    intro r hr
    rw [(List.length_eq_zero.mp hr.symm : r = [])]
    simp
  | cons c cs ih =>
    intro r hr
    cases r with
    | nil => simp at hr
    | cons x xs =>
      rw [List.zipWith_cons_cons, List.sum_cons, List.map_cons, List.sum_cons,
        List.sum_cons, ih xs (by simpa using hr)]
      ring

/-- Helper: a row in which no entry equals the reference value contributes
zero indicator mass. -/
lemma sum_indicator_zero (mval : ℝ) :
    ∀ t : List ℝ, (∀ x ∈ t, x ≠ mval) →
      (t.map (fun x => if x = mval then (1 : ℝ) else 0)).sum = 0 := by
  intro t
  induction t with
  | nil => intro _; rfl
  | cons a t ih =>
    intro h
    rw [List.map_cons, List.sum_cons, if_neg (h a (List.mem_cons_self a t)),
      ih (fun x hx => h x (List.mem_cons_of_mem a hx))]
    ring

/-- Helper: a row attaining the reference value at exactly one position
contributes indicator mass one. -/
lemma sum_indicator_unique (mval : ℝ) :
    ∀ (r : List ℝ) (j : ℕ), r.get? j = some mval →
      (∀ i x, r.get? i = some x → x = mval → i = j) →
      (r.map (fun x => if x = mval then (1 : ℝ) else 0)).sum = 1 := by
  intro r
  induction r with
  | nil => intro j hj _; simp at hj
  | cons a t ih =>
    intro j hj huniq
    cases j with
    | zero =>
      rw [List.get?_cons_zero] at hj
      injection hj with hj
      subst hj
      have htail : ∀ x ∈ t, x ≠ a := by
        intro x hx hxa
        obtain ⟨i, hi⟩ := List.mem_iff_get?.mp hx
        have := huniq (i + 1) x (by simpa using hi) hxa
        omega
      rw [List.map_cons, List.sum_cons, if_pos rfl, sum_indicator_zero a t htail]
      ring
    | succ k =>
      rw [List.get?_cons_succ] at hj
      have hhead : a ≠ mval := by
        intro ha
        have := huniq 0 a rfl ha
        omega
      have huniq' : ∀ i x, t.get? i = some x → x = mval → i = k := by
        intro i x hi hx
        have := huniq (i + 1) x (by simpa using hi) hx
        omega
      rw [List.map_cons, List.sum_cons, if_neg hhead, ih k hj huniq']
      ring

/-- Helper: with unique per-row maxima the accumulated argmax counts total
exactly the number of samples. -/
lemma dirchlet_counts_sum (samples : List (List ℝ)) (Nm : ℕ)
    (hlen : ∀ r ∈ samples, r.length = Nm)
    (huniq : ∀ r ∈ samples, ∃ j, r.get? j = some (rowMax r) ∧
      ∀ i x, r.get? i = some x → x = rowMax r → i = j) :
    ∀ acc : List ℝ, acc.length = Nm →
      (samples.foldl (fun acc r =>
        List.zipWith (fun c x => c + if x = rowMax r then (1 : ℝ) else 0) acc r) acc).sum
      = acc.sum + samples.length := by
  induction samples with
  | nil => intro acc _; simp
  | cons r rest ih =>
    intro acc hacc
    rw [List.foldl_cons]
    rw [ih (fun q hq => hlen q (List.mem_cons_of_mem r hq))
      (fun q hq => huniq q (List.mem_cons_of_mem r hq)) _
      (by rw [List.length_zipWith, hacc, hlen r (List.mem_cons_self r rest), min_self])]
    obtain ⟨j, hj, hju⟩ := huniq r (List.mem_cons_self r rest)
    rw [zipWith_add_sum _ acc r (by rw [hacc, hlen r (List.mem_cons_self r rest)])]
    rw [sum_indicator_unique (rowMax r) r j hj hju, List.length_cons]
    push_cast
    ring

/-- Helper: sum of a division map. -/
lemma sum_map_div (c : ℝ) : ∀ l : List ℝ, (l.map (fun x => x / c)).sum = l.sum / c := by
  intro l
  induction l with
  | nil => simp
  | cons a t ih =>
    rw [List.map_cons, List.sum_cons, List.sum_cons, ih, add_div]

/-- Helper: sum of an affine map. -/
lemma sum_map_affine (a b : ℝ) :
    ∀ l : List ℝ, (l.map (fun x => a * x + b)).sum = a * l.sum + l.length * b := by
  intro l
  induction l with
  | nil => simp
  | cons x t ih =>
    rw [List.map_cons, List.sum_cons, List.sum_cons, ih, List.length_cons]
    push_cast
    ring

/-- C8: for every evidence input the protected exceedance probabilities of
`fit_bms` satisfy `pxp = (1-bor)*xp + bor/Nm` componentwise (line 354),
and — whenever the Monte Carlo rows are well-formed with unique row maxima,
which holds almost surely for continuous Dirichlet draws — the pxp values
sum exactly to 1 across models. -/
theorem fit_bms_pxp_identity (psi gammaln : ℝ → ℝ) (fis : List ModelFitInfo)
    (use_bic : Bool) (tol : ℝ) (fuel : ℕ) (samples : List (List ℝ))
    (hNm : 1 ≤ fis.length)
    (hne : samples ≠ [])
    (hlen : ∀ r ∈ samples, r.length = fis.length)
    (huniq : ∀ r ∈ samples, ∃ j, r.get? j = some (rowMax r) ∧
      ∀ i x, r.get? i = some x → x = rowMax r → i = j) :
    (∀ i, i < fis.length →
      (fit_bms psi gammaln fis use_bic tol fuel samples).pxp.getD i 0 =
        (1 - (fit_bms psi gammaln fis use_bic tol fuel samples).bor) *
          (fit_bms psi gammaln fis use_bic tol fuel samples).xp.getD i 0 +
        (fit_bms psi gammaln fis use_bic tol fuel samples).bor / (fis.length : ℝ)) ∧
    (fit_bms psi gammaln fis use_bic tol fuel samples).pxp.sum = 1 := by
  set b := (fit_bms psi gammaln fis use_bic tol fuel samples).bor with hb
  have hxp : (fit_bms psi gammaln fis use_bic tol fuel samples).xp =
      dirchlet_exceedence fis.length samples := rfl
  have hpxp : (fit_bms psi gammaln fis use_bic tol fuel samples).pxp =
      (dirchlet_exceedence fis.length samples).map
        (fun x => (1 - b) * x + b / (fis.length : ℝ)) := rfl
  have hctslen : (samples.foldl (fun acc r =>
      List.zipWith (fun c x => c + if x = rowMax r then (1 : ℝ) else 0) acc r)
      (List.replicate fis.length 0)).length = fis.length :=
    dirchlet_counts_length samples fis.length hlen _ (List.length_replicate _ _)
  have hxplen : (dirchlet_exceedence fis.length samples).length = fis.length := by
    rw [dirchlet_exceedence, List.length_map]
    exact hctslen
  constructor
  · intro i hi
    rw [hpxp, hxp]
    exact getD_map_eq _ _ i _ 0
      (get?_eq_some_getD _ i (by rw [hxplen]; exact hi))
  · rw [hpxp]
    rw [sum_map_affine (1 - b) (b / (fis.length : ℝ)) (dirchlet_exceedence fis.length samples)]
    have hsum1 : (dirchlet_exceedence fis.length samples).sum = 1 := by
      rw [dirchlet_exceedence, sum_map_div]
      rw [dirchlet_counts_sum samples fis.length hlen huniq _ (List.length_replicate _ _)]
      rw [List.sum_replicate, smul_zero, zero_add]
      have hN : ((samples.length : ℕ) : ℝ) ≠ 0 := by
        have : samples.length ≠ 0 := fun hc => hne (List.length_eq_zero.mp hc)
        exact_mod_cast this
      exact div_self hN
    rw [hsum1, hxplen]
    have hNe : ((fis.length : ℕ) : ℝ) ≠ 0 := by
      have : fis.length ≠ 0 := by omega
      exact_mod_cast this
    field_simp

/-- C8 witness: the pxp identity at a concrete one-model input with a
single Monte Carlo draw. -/
theorem fit_bms_pxp_identity_witness :
    ((1 : ℕ) ≤ [cleanFi].length) ∧ ([[(5 : ℝ)]] ≠ ([] : List (List ℝ))) ∧
    (∀ r ∈ [[(5 : ℝ)]], r.length = [cleanFi].length) ∧
    (∀ r ∈ [[(5 : ℝ)]], ∃ j, r.get? j = some (rowMax r) ∧
      ∀ i x, r.get? i = some x → x = rowMax r → i = j) ∧
    ((∀ i, i < [cleanFi].length →
      (fit_bms id id [cleanFi] false 1 1 [[(5 : ℝ)]]).pxp.getD i 0 =
        (1 - (fit_bms id id [cleanFi] false 1 1 [[(5 : ℝ)]]).bor) *
          (fit_bms id id [cleanFi] false 1 1 [[(5 : ℝ)]]).xp.getD i 0 +
        (fit_bms id id [cleanFi] false 1 1 [[(5 : ℝ)]]).bor / (([cleanFi].length : ℕ) : ℝ)) ∧
    (fit_bms id id [cleanFi] false 1 1 [[(5 : ℝ)]]).pxp.sum = 1) := by
  have huniq : ∀ r ∈ [[(5 : ℝ)]], ∃ j, r.get? j = some (rowMax r) ∧
      ∀ i x, r.get? i = some x → x = rowMax r → i = j := by
    intro r hr
    rw [List.mem_singleton] at hr
    subst hr
    refine ⟨0, by simp [rowMax], ?_⟩
    intro i x hi _
    cases i with
    | zero => rfl
    | succ k => simp at hi
  have hlen : ∀ r ∈ [[(5 : ℝ)]], r.length = [cleanFi].length := by
    intro r hr
    rw [List.mem_singleton] at hr
    subst hr
    rfl
  exact ⟨by decide, by simp, hlen, huniq,
    fit_bms_pxp_identity id id [cleanFi] false 1 1 [[(5 : ℝ)]] (by decide)
      (by simp) hlen huniq⟩




